import Mathlib

/-!
Verification of the SnowdenCore video generator core
(`src/video_generator.rs`), as a shallow embedding in Lean.

Modelling conventions:
* Floating-point arithmetic (`f32`/`f64`) in the source is modelled by exact
  rational arithmetic over `ℚ`.  At every concrete input appearing in a
  theorem below the relevant float computations are exact (or the compared
  values are far enough apart that rounding cannot change the outcome), so
  the rational model agrees with the compiled code there.
* Decoded images are modelled by their dimensions; resampling filters do not
  affect any dimension or placement, so they are not modelled.
* `thread_rng`-driven shuffles are modelled by an arbitrary oracle
  `shuffle : List α → List α`; theorems that need it hypothesise that the
  oracle permutes (or at least preserves the length of) its input.
-/

namespace SnowdenCore

/-- Dimensions of a decoded `image::DynamicImage`: width × height. -/
structure Img where
  w : ℕ
  h : ℕ
deriving DecidableEq

/-- `create_video_precise_timing`, line 257:
`let unique_frames_needed = (mp3_duration / jump_cut_seconds).ceil() as usize;`
(`as usize` saturates negative values to 0, modelled by `Int.toNat`). -/
def uniqueFramesNeeded (mp3_duration jump_cut_seconds : ℚ) : ℕ :=
  (⌈mp3_duration / jump_cut_seconds⌉).toNat

/-- `create_video_precise_timing`, line 261:
`let input_framerate = 1.0 / jump_cut_seconds;` -/
def inputFramerate (jump_cut_seconds : ℚ) : ℚ :=
  1 / jump_cut_seconds

/-- A crop rectangle as passed to `crop_imm(x, y, width, height)`. -/
structure CropRect where
  x : ℕ
  y : ℕ
  cw : ℕ
  ch : ℕ
deriving DecidableEq

/-- The crop rectangle chosen by `smart_crop_image` (lines 143-164).
The `as u32` casts of nonnegative floats truncate toward zero, modelled by
`Nat.floor`; the `u32` subtractions `orig_width - new_width` and
`orig_height - new_height` appear here as truncated `ℕ` subtraction, and the
theorems about this function show they never underflow on positive inputs. -/
def smartCropRect (img : Img) (target_width target_height : ℕ) : CropRect :=
  let orig_ratio : ℚ := (img.w : ℚ) / (img.h : ℚ)
  let target_ratio : ℚ := (target_width : ℚ) / (target_height : ℚ)
  if orig_ratio > target_ratio then
    -- Image is wider than target - crop horizontally
    let new_width : ℕ := ⌊(img.h : ℚ) * target_ratio⌋₊
    ⟨(img.w - new_width) / 2, 0, new_width, img.h⟩
  else
    -- Image is taller than target - crop vertically
    let new_height : ℕ := ⌊(img.w : ℚ) / target_ratio⌋₊
    ⟨0, (img.h - new_height) / 2, img.w, new_height⟩

/-- Dimensions of the image returned by `smart_crop_image`: the crop is fed
to `resize_exact(target_width, target_height, Lanczos3)`, whose contract in
the `image` crate is to produce exactly the requested dimensions. -/
def smart_crop_image (img : Img) (target_width target_height : ℕ) : Img :=
  let _ := smartCropRect img target_width target_height
  ⟨target_width, target_height⟩

/-- `CircularImageQueue` (lines 103-106): `images` is the `VecDeque` of
pending references (head = front), `all_images` the fixed full pool. -/
structure CircularImageQueue (α : Type) where
  images : List α
  all_images : List α

/-- `CircularImageQueue::new` (lines 109-120): shuffles the input once; both
the pending queue and the fixed pool are that shuffled copy. -/
def CircularImageQueue.new (shuffle : List α → List α) (images : List α) :
    CircularImageQueue α :=
  let shuffled := shuffle images
  ⟨shuffled, shuffled⟩

/-- The loop body of `CircularImageQueue::next_images` (lines 125-137),
iterated `count` times over the pending list: refill with a fresh shuffle of
the full pool when pending is empty, then `pop_front` (a pop from an empty
refill — possible only for an empty pool — pushes nothing, exactly like the
`if let Some(image)` in the source). Returns (collected result, final
pending). -/
def nextImagesGo (shuffle : List α → List α) (all_images : List α) :
    ℕ → List α → List α × List α
  | 0, pending => ([], pending)
  | count + 1, pending =>
    match (if pending.isEmpty then shuffle all_images else pending) with
    | [] => nextImagesGo shuffle all_images count []
    | x :: rest =>
      let rp := nextImagesGo shuffle all_images count rest
      (x :: rp.1, rp.2)

/-- `CircularImageQueue::next_images` (lines 122-140). -/
def CircularImageQueue.next_images (shuffle : List α → List α)
    (q : CircularImageQueue α) (count : ℕ) : List α × CircularImageQueue α :=
  let rp := nextImagesGo shuffle q.all_images count q.images
  (rp.1, ⟨rp.2, q.all_images⟩)

/-- The Reuse Queue invariant of the spec: the pending list is a permutation
of a subset of the fixed pool. -/
def CircularImageQueue.Inv (q : CircularImageQueue α) : Prop :=
  q.images.Subperm q.all_images

/-- `FrameJob` (lines 208-213). -/
structure FrameJob (α : Type) where
  frame_number : ℕ
  images : List α
  mobile_format : Bool

/-- The job-collection loop of `create_video_precise_timing` (lines
276-284): `n` jobs with frame numbers `i, i+1, ...`, each pulling
`images_per_frame` references from the queue. -/
def buildJobsGo (shuffle : List α → List α) (mobile_format : Bool)
    (images_per_frame : ℕ) :
    ℕ → ℕ → CircularImageQueue α → List (FrameJob α)
  | _, 0, _ => []
  | i, n + 1, q =>
    let rq := q.next_images shuffle images_per_frame
    ⟨i, rq.1, mobile_format⟩ ::
      buildJobsGo shuffle mobile_format images_per_frame (i + 1) n rq.2

/-- One decimal digit as the `Char` that Rust's formatter prints for it. -/
def digitChar (d : ℕ) : Char := Char.ofNat (48 + d)

/-- The index part of `format!("frame_{:06}.png", n)` (lines 200 and 231):
for `n < 10^6` the `{:06}` formatting yields exactly the six decimal digits
of `n`, most significant first, left-padded with zeros. We model the name at
that width; every theorem about naming carries the `< 10^6` bound (the
spec's "fixed width sufficient for the maximum expected frame count"). -/
def pad6 (n : ℕ) : List ℕ :=
  [n / 100000 % 10, n / 10000 % 10, n / 1000 % 10, n / 100 % 10, n / 10 % 10, n % 10]

/-- The full artifact file name `frame_{:06}.png` as a character list. -/
def frameName (n : ℕ) : List Char :=
  "frame_".data ++ (pad6 n).map digitChar ++ ".png".data

/-- The numeric value of a most-significant-first decimal digit list. -/
def digitsVal (l : List ℕ) : ℕ :=
  l.foldl (fun a d => 10 * a + d) 0

/-- Content of one 1080×640 band of the stacked mobile frame: `none` while
the band still holds the blank canvas, `some r` once the cropped pixels of
the decoded image `r` have been copied over it.  (The crop produced by
`smart_crop_image(&img, 1080, 640)` is exactly 1080×640 and is copied at
`y_offset = i * 640`, so it covers band `i` exactly; the guard
`y_offset + y < 1920` never fails for `i < 3`.) -/
abbrev Bands (α : Type) := Fin 3 → Option α

/-- The image loop of `create_mobile_stacked_frame` (lines 174-197), at band
granularity: index `i` counts `enumerate()`, `break` at `i >= 3`, a failed
decode `continue`s leaving the band as it was. `decode r = true` models
`image::open` succeeding on reference `r`. -/
def stackLoopGo (decode : α → Bool) : List α → ℕ → Bands α → Bands α
  | [], _, acc => acc
  | r :: rest, i, acc =>
    if h : i < 3 then
      stackLoopGo decode rest (i + 1)
        (if decode r then Function.update acc ⟨i, h⟩ (some r) else acc)
    else acc

/-- The three bands of the stacked frame built from `images`. -/
def stackBands (decode : α → Bool) (images : List α) : Bands α :=
  stackLoopGo decode images 0 (fun _ => none)

/-- Per-frame failures of `process_frame_job` (`anyhow::Error` values). -/
inductive FrameErr where
  | corrupted
  | saveFailed
deriving DecidableEq

/-- `create_mobile_stacked_frame` (lines 166-206): composites the bands and
saves `frame_{:06}.png`.  The save itself is modelled as succeeding (disk
failures are outside the model), so the returned `Except` is `ok` with the
bands and the artifact name — decode failures never produce an error here. -/
def create_mobile_stacked_frame (decode : α → Bool) (images : List α)
    (frame_number : ℕ) : Except FrameErr (Bands α × List Char) :=
  Except.ok (stackBands decode images, frameName frame_number)

/-- What the desktop branch of `process_frame_job` draws: the saved artifact
dimensions and the region of it covered by the (rescaled) source pixels. -/
structure RenderedFrame where
  out : Img
  content : Img
deriving DecidableEq

/-- The desktop branch of `process_frame_job` (lines 221-234):
`img.resize_exact(width, height, Lanczos3)`.  `resize_exact`'s contract in
the `image` crate is to scale to exactly the requested dimensions, ignoring
the aspect ratio, so the source pixels cover the whole output frame. -/
def desktopRender (src : Img) (width height : ℕ) : RenderedFrame :=
  let _ := src
  ⟨⟨width, height⟩, ⟨width, height⟩⟩

/-- The render preserves the source's aspect ratio
(`content.w / content.h = src.w / src.h`, cleared of denominators). -/
def preservesAspect (src : Img) (r : RenderedFrame) : Prop :=
  r.content.w * src.h = r.content.h * src.w

/-- Some part of the output frame is not covered by source pixels. -/
def letterboxed (r : RenderedFrame) : Prop :=
  r.content.w < r.out.w ∨ r.content.h < r.out.h

/-- `process_frame_job` (lines 215-237), outcome only (`Result<()>`):
mobile jobs delegate to `create_mobile_stacked_frame` (which only fails on
save, modelled as succeeding); desktop jobs fail with a `Corrupted image`
error when `image::open` fails, and write nothing (but succeed) when the job
carries no image. -/
def process_frame_job (decode : α → Bool) (job : FrameJob α) :
    Except FrameErr Unit :=
  if job.mobile_format then
    match create_mobile_stacked_frame decode job.images job.frame_number with
    | Except.ok _ => Except.ok ()
    | Except.error e => Except.error e
  else
    match job.images.head? with
    | none => Except.ok ()
    | some png => if decode png then Except.ok () else Except.error .corrupted

/-- The ffmpeg invocation assembled at lines 316-327. -/
structure EncodeArgs where
  input_framerate : ℚ
  frame_pattern : List Char
  output_framerate : ℕ
deriving DecidableEq

/-- Everything `create_video_precise_timing` produces before and at the
encode step. -/
structure VideoRun (α : Type) where
  jobs : List (FrameJob α)
  results : List (Except FrameErr Unit)
  successful_frames : ℕ
  encode : EncodeArgs

/-- The success count of the result loop (lines 302-308). -/
def countOk (rs : List (Except FrameErr Unit)) : ℕ :=
  rs.countP (fun r => r.isOk)

/-- `create_video_precise_timing` (lines 239-339), with the two external
effects abstracted: `shuffle` stands for the `thread_rng` shuffles and
`decode` for `image::open`.  The frame jobs are built serially from the
queue, every job is processed (the rayon `par_iter().map().collect()`
collects one result per job, in job order), the results are only counted,
and ffmpeg is then invoked unconditionally with `-framerate input_framerate`
and the pattern `frame_%06d.png`. -/
def create_video_precise_timing (shuffle : List α → List α)
    (decode : α → Bool) (png_files : List α)
    (jump_cut_seconds : ℚ) (framerate : ℕ) (mobile_format : Bool)
    (mp3_duration : ℚ) : VideoRun α :=
  let unique_frames_needed := uniqueFramesNeeded mp3_duration jump_cut_seconds
  let images_per_frame := if mobile_format then 3 else 1
  let q := CircularImageQueue.new shuffle png_files
  let jobs := buildJobsGo shuffle mobile_format images_per_frame 0
      unique_frames_needed q
  let results := jobs.map (process_frame_job decode)
  { jobs := jobs
    results := results
    successful_frames := countOk results
    encode :=
      { input_framerate := inputFramerate jump_cut_seconds
        frame_pattern := "frame_%06d.png".data
        output_framerate := framerate } }

/-- The fatal configuration errors `main` can return before any frame work
(lines 352-373); external-tool errors are outside the model. -/
inductive ConfigErr where
  | mp3NotFound
  | pngDirNotFound
  | noPngFiles
deriving DecidableEq

/-- `main` (lines 342-395): after the existence checks and the duration
probe, the scanned PNG list is tested for emptiness (lines 371-373) and only
a non-empty pool reaches `create_video_precise_timing`. -/
def mainModel (shuffle : List α → List α) (decode : α → Bool)
    (song_exists png_dir_exists : Bool) (mp3_duration : ℚ)
    (png_files : List α) (jump_cut_seconds : ℚ) (framerate : ℕ)
    (mobile_format : Bool) : Except ConfigErr (VideoRun α) :=
  if song_exists = false then Except.error .mp3NotFound
  else if png_dir_exists = false then Except.error .pngDirNotFound
  else if png_files.isEmpty then Except.error .noPngFiles
  else Except.ok (create_video_precise_timing shuffle decode png_files
    jump_cut_seconds framerate mobile_format mp3_duration)

/-! ### Helper lemmas: the Reuse Queue -/

theorem nextImagesGo_zero {α : Type} (shuffle : List α → List α)
    (all_images pending : List α) :
    nextImagesGo shuffle all_images 0 pending = ([], pending) := rfl

theorem nextImagesGo_cons {α : Type} (shuffle : List α → List α)
    (all_images : List α) (n : ℕ) (x : α) (rest : List α) :
    nextImagesGo shuffle all_images (n + 1) (x :: rest) =
      (x :: (nextImagesGo shuffle all_images n rest).1,
        (nextImagesGo shuffle all_images n rest).2) := rfl

theorem nextImagesGo_nil_succ {α : Type} (shuffle : List α → List α)
    (all_images : List α) (n : ℕ) :
    nextImagesGo shuffle all_images (n + 1) [] =
      match shuffle all_images with
      | [] => nextImagesGo shuffle all_images n []
      | x :: rest =>
        (x :: (nextImagesGo shuffle all_images n rest).1,
          (nextImagesGo shuffle all_images n rest).2) := rfl

theorem nextImagesGo_of_le {α : Type} (shuffle : List α → List α)
    (all_images : List α) :
    ∀ (n : ℕ) (pending : List α), n ≤ pending.length →
      nextImagesGo shuffle all_images n pending = (pending.take n, pending.drop n) := by
  intro n
  induction n with
  | zero => intro pending _; simp [nextImagesGo_zero]
  | succ n ih =>
    intro pending hn
    match pending with
    | [] => simp at hn
    | x :: rest =>
      have hr : n ≤ rest.length := by simpa using hn
      rw [nextImagesGo_cons, ih rest hr]
      simp

theorem nextImagesGo_length {α : Type} (shuffle : List α → List α)
    (all_images : List α) (hall : all_images ≠ [])
    (hlen : ∀ l, (shuffle l).length = l.length) :
    ∀ (n : ℕ) (pending : List α),
      ((nextImagesGo shuffle all_images n pending).1).length = n := by
  intro n
  induction n with
  | zero => intro pending; rfl
  | succ n ih =>
    intro pending
    match pending with
    | [] =>
      rw [nextImagesGo_nil_succ]
      match hs : shuffle all_images with
      | [] =>
        exfalso
        apply hall
        apply List.eq_nil_of_length_eq_zero
        have h := hlen all_images
        rw [hs] at h
        simpa using h.symm
      | y :: ys => simp [ih]
    | x :: rest =>
      rw [nextImagesGo_cons]
      simp [ih]

theorem nextImagesGo_split {α : Type} (shuffle : List α → List α)
    (all_images : List α) :
    ∀ (pending : List α) (m : ℕ),
      nextImagesGo shuffle all_images (pending.length + m) pending
        = (pending ++ (nextImagesGo shuffle all_images m []).1,
           (nextImagesGo shuffle all_images m []).2) := by
  intro pending
  induction pending with
  | nil => intro m; simp
  | cons x rest ih =>
    intro m
    have h1 : (x :: rest).length + m = (rest.length + m) + 1 := by
      simp only [List.length_cons]; omega
    rw [h1, nextImagesGo_cons, ih m]
    simp

theorem nextImagesGo_nil_take {α : Type} (shuffle : List α → List α)
    (all_images : List α) (hlen : ∀ l, (shuffle l).length = l.length) :
    ∀ (m : ℕ), m ≤ all_images.length →
      (nextImagesGo shuffle all_images m []).1 = (shuffle all_images).take m := by
  intro m hm
  match m, hm with
  | 0, _ => simp [nextImagesGo_zero]
  | m + 1, hm =>
    match hs : shuffle all_images with
    | [] =>
      exfalso
      have h := hlen all_images
      rw [hs] at h
      simp at h
      omega
    | y :: ys =>
      have hky : m + 1 ≤ (y :: ys).length := by
        rw [← hs, hlen]
        exact hm
      have e : nextImagesGo shuffle all_images (m + 1) [] =
          nextImagesGo shuffle all_images (m + 1) (y :: ys) := by
        rw [nextImagesGo_nil_succ, hs, nextImagesGo_cons]
      rw [e, nextImagesGo_of_le shuffle all_images (m + 1) (y :: ys) hky]

theorem nextImagesGo_subperm {α : Type} (shuffle : List α → List α)
    (all_images : List α) (hperm : ∀ l, List.Perm (shuffle l) l) :
    ∀ (n : ℕ) (pending : List α), List.Subperm pending all_images →
      List.Subperm (nextImagesGo shuffle all_images n pending).2 all_images := by
  intro n
  induction n with
  | zero => intro pending h; exact h
  | succ n ih =>
    intro pending hp
    match pending with
    | [] =>
      rw [nextImagesGo_nil_succ]
      match hs : shuffle all_images with
      | [] => exact ih [] List.nil_subperm
      | y :: ys =>
        have h1 : List.Subperm (y :: ys) all_images := by
          rw [← hs]; exact (hperm all_images).subperm
        have hys : List.Subperm ys all_images :=
          List.Subperm.trans (List.Sublist.subperm (List.sublist_cons_self y ys)) h1
        exact ih ys hys
    | x :: rest =>
      have hrest : List.Subperm rest all_images :=
        List.Subperm.trans (List.Sublist.subperm (List.sublist_cons_self x rest)) hp
      rw [nextImagesGo_cons]
      exact ih rest hrest

theorem subperm_nodup {α : Type} {l₁ l₂ : List α} (h : List.Subperm l₁ l₂)
    (hnd : l₂.Nodup) : l₁.Nodup := by
  obtain ⟨l, hl₁, hl₂⟩ := h
  exact (List.Perm.nodup_iff hl₁).mp (List.Nodup.sublist hl₂ hnd)

/-! ### Helper lemmas: job construction -/

theorem buildJobsGo_map_frame_number {α : Type} (shuffle : List α → List α)
    (mobile_format : Bool) (images_per_frame : ℕ) :
    ∀ (n i : ℕ) (q : CircularImageQueue α),
      (buildJobsGo shuffle mobile_format images_per_frame i n q).map
          (fun j => j.frame_number) = List.range' i n := by
  intro n
  induction n with
  | zero => intro i q; rfl
  | succ n ih =>
    intro i q
    simp only [buildJobsGo, List.map_cons, ih, List.range']

theorem buildJobsGo_length {α : Type} (shuffle : List α → List α)
    (mobile_format : Bool) (images_per_frame : ℕ) (n i : ℕ)
    (q : CircularImageQueue α) :
    (buildJobsGo shuffle mobile_format images_per_frame i n q).length = n := by
  have h := congrArg List.length
    (buildJobsGo_map_frame_number shuffle mobile_format images_per_frame n i q)
  simpa using h

/-! ### Claim theorems: timing, Reuse Queue, pipeline -/

/-- Claim C2: for every `trackDurationSeconds` and every `perFrameSeconds > 0`
the pipeline's computed frame count — the number of frame jobs it builds —
equals `ceil(trackDurationSeconds / perFrameSeconds)`, and the input
framerate handed to the encoder equals `1 / perFrameSeconds`. -/
theorem timing_model_spec {α : Type} (shuffle : List α → List α)
    (decode : α → Bool) (png_files : List α)
    (mp3_duration jump_cut_seconds : ℚ) (framerate : ℕ) (mobile_format : Bool)
    (hj : 0 < jump_cut_seconds) :
    (create_video_precise_timing shuffle decode png_files jump_cut_seconds
        framerate mobile_format mp3_duration).jobs.length
      = (⌈mp3_duration / jump_cut_seconds⌉).toNat ∧
    (create_video_precise_timing shuffle decode png_files jump_cut_seconds
        framerate mobile_format mp3_duration).encode.input_framerate
      = 1 / jump_cut_seconds := by
  have _ := hj
  constructor
  · simp only [create_video_precise_timing]
    rw [buildJobsGo_length]
    rfl
  · rfl

/-- Claim C2 witness: for `trackDurationSeconds = 10` and
`perFrameSeconds = 0.5` the frame count is 20 and the input framerate 2. -/
theorem timing_model_spec_witness :
    (create_video_precise_timing id (fun _ : ℕ => true) [0] (1/2) 30 false
        10).jobs.length = 20 ∧
    (create_video_precise_timing id (fun _ : ℕ => true) [0] (1/2) 30 false
        10).encode.input_framerate = 2 := by
  have h := timing_model_spec id (fun _ : ℕ => true) [0] 10 (1/2) 30 false
    (by norm_num)
  constructor
  · rw [h.1, show (10 : ℚ) / (1/2) = ((20 : ℤ) : ℚ) by norm_num,
      Int.ceil_intCast]
    rfl
  · rw [h.2]
    norm_num

/-- Claim C4: for every queue whose pool is non-empty and every `k`,
`next_images` returns exactly `k` references; it pops from the front of the
pending list (when no refill is needed the result is precisely the first
`k` pending entries, and they are consumed); when the pending list is empty
it is refilled with a fresh shuffle of the full pool before popping — in
particular a request that exhausts pending mid-request returns all of
pending followed by the front of the freshly shuffled pool; and the fixed
pool is never mutated. -/
theorem next_images_spec {α : Type} (shuffle : List α → List α)
    (q : CircularImageQueue α) (k : ℕ) (hpool : q.all_images ≠ [])
    (hlen : ∀ l, (shuffle l).length = l.length) :
    ((q.next_images shuffle k).1).length = k ∧
    (k ≤ q.images.length →
      (q.next_images shuffle k).1 = q.images.take k ∧
      ((q.next_images shuffle k).2).images = q.images.drop k) ∧
    (q.images = [] → k ≤ q.all_images.length →
      (q.next_images shuffle k).1 = (shuffle q.all_images).take k) ∧
    (∀ m, m ≤ q.all_images.length → k = q.images.length + m →
      (q.next_images shuffle k).1
        = q.images ++ (shuffle q.all_images).take m) ∧
    ((q.next_images shuffle k).2).all_images = q.all_images := by
  refine ⟨?_, ?_, ?_, ?_, rfl⟩
  · simp only [CircularImageQueue.next_images]
    exact nextImagesGo_length shuffle q.all_images hpool hlen k q.images
  · intro hk
    simp only [CircularImageQueue.next_images]
    rw [nextImagesGo_of_le shuffle q.all_images k q.images hk]
    exact ⟨rfl, rfl⟩
  · intro hq hk
    simp only [CircularImageQueue.next_images, hq]
    exact nextImagesGo_nil_take shuffle q.all_images hlen k hk
  · intro m hm hk
    subst hk
    simp only [CircularImageQueue.next_images]
    rw [nextImagesGo_split shuffle q.all_images q.images m,
      nextImagesGo_nil_take shuffle q.all_images hlen m hm]

/-- Claim C4 witness: a queue with pending `[1, 2]` over pool `[1, 2, 3]`
yields exactly 4 references on `next_images 4` (crossing one refill), and
the pool is untouched. -/
theorem next_images_spec_witness :
    ((CircularImageQueue.mk [1, 2] [1, 2, 3]).next_images id 4).1.length = 4 ∧
    ((CircularImageQueue.mk [1, 2] [1, 2, 3]).next_images id 4).1
      = [1, 2] ++ [1, 2, 3].take 2 ∧
    ((CircularImageQueue.mk [1, 2] [1, 2, 3]).next_images id 4).2.all_images
      = [1, 2, 3] := by
  have h := next_images_spec id (CircularImageQueue.mk [1, 2] [1, 2, 3]) 4
    (by decide) (fun _ => rfl)
  refine ⟨h.1, ?_, h.2.2.2.2⟩
  exact h.2.2.2.1 2 (by decide) rfl

/-- Claim C5: when the shuffle oracle permutes its input, the queue
invariant holds after construction (the pending list is a permutation of a
subset of the pool — in fact of the full pool) and is preserved by every
`next_images` call, which also leaves the fixed pool unchanged; and for a
duplicate-free pool, any single unbroken pass through the pending list (no
refill boundary crossed, `k ≤ pending.length`) emits no reference twice. -/
theorem reuse_queue_invariant {α : Type} (shuffle : List α → List α)
    (hperm : ∀ l, List.Perm (shuffle l) l) :
    (∀ pool : List α, (CircularImageQueue.new shuffle pool).Inv ∧
        List.Subperm ((CircularImageQueue.new shuffle pool).images) pool) ∧
    (∀ (q : CircularImageQueue α) (k : ℕ), q.Inv →
        ((q.next_images shuffle k).2).Inv ∧
        ((q.next_images shuffle k).2).all_images = q.all_images) ∧
    (∀ (q : CircularImageQueue α) (k : ℕ), q.all_images.Nodup → q.Inv →
        k ≤ q.images.length → ((q.next_images shuffle k).1).Nodup) := by
  refine ⟨?_, ?_, ?_⟩
  · intro pool
    exact ⟨List.Subperm.refl _, (hperm pool).subperm⟩
  · intro q k hq
    refine ⟨?_, rfl⟩
    simp only [CircularImageQueue.Inv, CircularImageQueue.next_images] at hq ⊢
    exact nextImagesGo_subperm shuffle q.all_images hperm k q.images hq
  · intro q k hnd hq hk
    simp only [CircularImageQueue.next_images]
    rw [nextImagesGo_of_le shuffle q.all_images k q.images hk]
    have hp : q.images.Nodup := subperm_nodup hq hnd
    exact List.Nodup.sublist (List.take_sublist k q.images) hp

/-- Claim C5 witness: instantiated with the identity shuffle over the pool
`[1, 2, 3]`: the fresh queue satisfies the invariant, and an unbroken
2-element pass over pending `[1, 2]` emits no duplicate. -/
theorem reuse_queue_invariant_witness :
    (CircularImageQueue.new id [1, 2, 3]).Inv ∧
    ((CircularImageQueue.mk [1, 2] [1, 2, 3]).next_images id 2).1.Nodup := by
  have h := reuse_queue_invariant (α := ℕ) id (fun l => List.Perm.refl l)
  refine ⟨(h.1 [1, 2, 3]).1, ?_⟩
  exact h.2.2 (CircularImageQueue.mk [1, 2] [1, 2, 3]) 2 (by decide)
    ⟨[1, 2], List.Perm.refl _, by decide⟩ (by decide)

/-- Claim C7: per-frame failures never unwind the batch.  Every job `i` of
the run yields its own result — `process_frame_job` applied to that job
alone, whatever happens in any other job — the batch collects one result
per job, the failures are only counted (`successful_frames`), and the run
still assembles the encode invocation with the computed input framerate. -/
theorem per_frame_error_isolation {α : Type} (shuffle : List α → List α)
    (decode : α → Bool) (png_files : List α) (jump_cut_seconds : ℚ)
    (framerate : ℕ) (mobile_format : Bool) (mp3_duration : ℚ) (i : ℕ)
    (hi : i < (create_video_precise_timing shuffle decode png_files
        jump_cut_seconds framerate mobile_format mp3_duration).jobs.length) :
    (create_video_precise_timing shuffle decode png_files jump_cut_seconds
        framerate mobile_format mp3_duration).results[i]?
      = ((create_video_precise_timing shuffle decode png_files
          jump_cut_seconds framerate mobile_format mp3_duration).jobs[i]?).map
            (process_frame_job decode) ∧
    (create_video_precise_timing shuffle decode png_files jump_cut_seconds
        framerate mobile_format mp3_duration).results.length
      = (create_video_precise_timing shuffle decode png_files jump_cut_seconds
        framerate mobile_format mp3_duration).jobs.length ∧
    (create_video_precise_timing shuffle decode png_files jump_cut_seconds
        framerate mobile_format mp3_duration).successful_frames
      = countOk (create_video_precise_timing shuffle decode png_files
        jump_cut_seconds framerate mobile_format mp3_duration).results ∧
    (create_video_precise_timing shuffle decode png_files jump_cut_seconds
        framerate mobile_format mp3_duration).encode
      = ⟨inputFramerate jump_cut_seconds, "frame_%06d.png".data, framerate⟩ := by
  have _ := hi
  refine ⟨?_, ?_, rfl, rfl⟩
  · show ((create_video_precise_timing shuffle decode png_files
      jump_cut_seconds framerate mobile_format mp3_duration).jobs.map
        (process_frame_job decode))[i]? = _
    rw [List.getElem?_map]
  · exact List.length_map _ _

/-- Claim C7 witness: 20 one-image jobs over the pool `0..19` with image 7
corrupted (`decode r = (r != 7)`): job 7's result is the recorded decode
error, job 8 (like every other job) still succeeds, 19 successes are
counted, and the encode arguments are still assembled. -/
theorem per_frame_error_isolation_witness :
    (create_video_precise_timing id (fun r : ℕ => r != 7) (List.range 20)
        (1/2) 30 false 10).results[8]? = some (Except.ok ()) ∧
    (create_video_precise_timing id (fun r : ℕ => r != 7) (List.range 20)
        (1/2) 30 false 10).results[7]? =
      some (Except.error FrameErr.corrupted) ∧
    (create_video_precise_timing id (fun r : ℕ => r != 7) (List.range 20)
        (1/2) 30 false 10).successful_frames = 19 := by
  have hu : uniqueFramesNeeded 10 (1/2) = 20 := by
    rw [uniqueFramesNeeded, show (10 : ℚ) / (1/2) = ((20 : ℤ) : ℚ) by norm_num,
      Int.ceil_intCast]
    rfl
  have hlen : (create_video_precise_timing id (fun r : ℕ => r != 7)
      (List.range 20) (1/2) 30 false 10).jobs.length = 20 := by
    simp only [create_video_precise_timing, hu]
    exact buildJobsGo_length _ _ _ _ _ _
  have h8 := per_frame_error_isolation id (fun r : ℕ => r != 7)
    (List.range 20) (1/2) 30 false 10 8 (by rw [hlen]; norm_num)
  refine ⟨h8.1.trans ?_, ?_, ?_⟩
  · simp only [create_video_precise_timing, hu]
    rfl
  · simp only [create_video_precise_timing, hu]
    rfl
  · simp only [create_video_precise_timing, hu]
    rfl

/-- Claim C9: an empty scanned image pool makes the pipeline terminate with
the `No PNG files found` configuration error (lines 371-373): `mainModel`
returns `Except.error` and `create_video_precise_timing` — the only place
frame jobs are constructed — is never reached. -/
theorem empty_pool_is_fatal {α : Type} (shuffle : List α → List α)
    (decode : α → Bool) (mp3_duration jump_cut_seconds : ℚ) (framerate : ℕ)
    (mobile_format : Bool) :
    mainModel shuffle decode true true mp3_duration ([] : List α)
      jump_cut_seconds framerate mobile_format
        = Except.error ConfigErr.noPngFiles := by
  rfl

/-! ### Helper lemmas: concrete smart-crop evaluations

At these inputs every `f32` step of the source is exact or safely away from
a rounding boundary: `1080/640 = 1.6875` is exact, `800/600` rounds to
`1.3333334 < 1.6875`, `1800/600 = 3` and `600 * 1.6875 = 1012.5` are exact,
and `800/1.6875 ≈ 474.074` truncates to 474 in `f32` as in `ℚ`. -/

theorem smartCropRect_800_600 :
    smartCropRect ⟨800, 600⟩ 1080 640 = ⟨0, 63, 800, 474⟩ := by
  have hfl : ⌊((800 : ℕ) : ℚ) / (((1080 : ℕ) : ℚ) / ((640 : ℕ) : ℚ))⌋₊ = 474 := by
    rw [Nat.floor_eq_iff (by norm_num)]
    norm_num
  simp only [smartCropRect]
  rw [if_neg (by push_cast; norm_num)]
  push_cast at hfl ⊢
  rw [hfl]

theorem smartCropRect_1800_600 :
    smartCropRect ⟨1800, 600⟩ 1080 640 = ⟨394, 0, 1012, 600⟩ := by
  have hfl : ⌊((600 : ℕ) : ℚ) * (((1080 : ℕ) : ℚ) / ((640 : ℕ) : ℚ))⌋₊ = 1012 := by
    rw [Nat.floor_eq_iff (by norm_num)]
    norm_num
  simp only [smartCropRect]
  rw [if_pos (by push_cast; norm_num)]
  push_cast at hfl ⊢
  rw [hfl]

/-! ### Claim theorems: the Frame Compositor's crop and resize -/

/-- Claim C10: `smart_crop_image` is safe and dimension-correct.  For every
source with positive dimensions and positive target size, the crop
dimension computed in the chosen branch never exceeds the matching source
dimension — so the centered-offset subtractions `orig_width - new_width`
and `orig_height - new_height` never underflow — and the returned image is
exactly `target_width × target_height`. -/
theorem smart_crop_safe (w h tw th : ℕ) (hw : 0 < w) (hh : 0 < h)
    (htw : 0 < tw) (hth : 0 < th) :
    (smartCropRect ⟨w, h⟩ tw th).cw ≤ w ∧
    (smartCropRect ⟨w, h⟩ tw th).ch ≤ h ∧
    smart_crop_image ⟨w, h⟩ tw th = ⟨tw, th⟩ := by
  have _ := hw
  have hhq : (0 : ℚ) < (h : ℚ) := by exact_mod_cast hh
  have htr : (0 : ℚ) < (tw : ℚ) / (th : ℚ) :=
    div_pos (by exact_mod_cast htw) (by exact_mod_cast hth)
  have hcancel : (h : ℚ) * ((w : ℚ) / (h : ℚ)) = (w : ℚ) := by
    field_simp
  have hwider : ((tw : ℚ) / (th : ℚ) < (w : ℚ) / (h : ℚ)) →
      ⌊(h : ℚ) * ((tw : ℚ) / (th : ℚ))⌋₊ ≤ w := by
    intro hgt
    have h1 : (h : ℚ) * ((tw : ℚ) / (th : ℚ)) ≤ (w : ℚ) := by
      have := mul_lt_mul_of_pos_left hgt hhq
      rw [hcancel] at this
      exact le_of_lt this
    calc ⌊(h : ℚ) * ((tw : ℚ) / (th : ℚ))⌋₊ ≤ ⌊(w : ℚ)⌋₊ :=
          Nat.floor_le_floor h1
      _ = w := Nat.floor_natCast w
  have htaller : ¬ ((tw : ℚ) / (th : ℚ) < (w : ℚ) / (h : ℚ)) →
      ⌊(w : ℚ) / ((tw : ℚ) / (th : ℚ))⌋₊ ≤ h := by
    intro hng
    have hle : (w : ℚ) / (h : ℚ) ≤ (tw : ℚ) / (th : ℚ) := not_lt.mp hng
    have h1 : (w : ℚ) / ((tw : ℚ) / (th : ℚ)) ≤ (h : ℚ) := by
      rw [div_le_iff₀ htr]
      have := mul_le_mul_of_nonneg_left hle (le_of_lt hhq)
      rw [hcancel] at this
      linarith [this]
    calc ⌊(w : ℚ) / ((tw : ℚ) / (th : ℚ))⌋₊ ≤ ⌊(h : ℚ)⌋₊ :=
          Nat.floor_le_floor h1
      _ = h := Nat.floor_natCast h
  refine ⟨?_, ?_, rfl⟩ <;> simp only [smartCropRect] <;> split
  case isTrue hgt => exact hwider hgt
  case isFalse hng => exact le_refl w
  case isTrue hgt => exact le_refl h
  case isFalse hng => exact htaller hng

/-- Claim C10 witness: at source 800×600 and target 1080×640 the crop fits
inside the source and the result is 1080×640. -/
theorem smart_crop_safe_witness :
    (smartCropRect ⟨800, 600⟩ 1080 640).cw ≤ 800 ∧
    (smartCropRect ⟨800, 600⟩ 1080 640).ch ≤ 600 ∧
    smart_crop_image ⟨800, 600⟩ 1080 640 = ⟨1080, 640⟩ :=
  smart_crop_safe 800 600 1080 640 (by norm_num) (by norm_num) (by norm_num)
    (by norm_num)

/-- Claim C1 counterexample: for the source 800×600 and the band 1080×640
the source's aspect ratio (4/3) is NOT wider than the band's (27/16), so
`smart_crop_image` takes the crop-height branch: it keeps the full width
800 and crops the height to 474 centered at `y = 63`.  The claimed crop
width `round(600 * 1080/640) = 1013` is not produced — and even in the
genuinely-wider branch (e.g. an 1800×600 source) the width is the
truncation 1012, not the rounding 1013. -/
theorem smart_crop_claim_counterexample :
    smartCropRect ⟨800, 600⟩ 1080 640 = ⟨0, 63, 800, 474⟩ ∧
    round ((600 : ℚ) * ((1080 : ℚ) / (640 : ℚ))) = 1013 ∧
    (smartCropRect ⟨800, 600⟩ 1080 640).cw ≠ 1013 ∧
    (smartCropRect ⟨1800, 600⟩ 1080 640).cw = 1012 := by
  refine ⟨smartCropRect_800_600, ?_, ?_, ?_⟩
  · rw [round_eq, Int.floor_eq_iff]
    norm_num
  · rw [smartCropRect_800_600]
    decide
  · rw [smartCropRect_1800_600]

/-- Claim C1 as amended: for a source image strictly wider (in exact aspect
ratio) than the target band, the crop keeps the full source height and
takes a centered width equal to the source height scaled by the band aspect
ratio, truncated to an integer, with `x_offset = (w - cropWidth)/2`; the
800×600 source against the 1080×640 band falls in the opposite (taller)
branch, where the full width 800 is kept and the height is cropped to
`floor(800·640/1080) = 474` at `y_offset = (600-474)/2 = 63`. -/
theorem smart_crop_wider_spec (w h tw th : ℕ)
    (hwider : (tw : ℚ) / (th : ℚ) < (w : ℚ) / (h : ℚ)) :
    smartCropRect ⟨w, h⟩ tw th =
      ⟨(w - ⌊(h : ℚ) * ((tw : ℚ) / (th : ℚ))⌋₊) / 2, 0,
        ⌊(h : ℚ) * ((tw : ℚ) / (th : ℚ))⌋₊, h⟩ ∧
    smartCropRect ⟨800, 600⟩ 1080 640 = ⟨0, 63, 800, 474⟩ := by
  constructor
  · simp only [smartCropRect]
    rw [if_pos (by exact hwider)]
  · exact smartCropRect_800_600

/-- Claim C1 (amended) witness: the 1800×600 source is genuinely wider than
the 1080×640 band; the crop keeps height 600 and takes the centered
truncated width 1012. -/
theorem smart_crop_wider_spec_witness :
    smartCropRect ⟨1800, 600⟩ 1080 640 = ⟨394, 0, 1012, 600⟩ ∧
    smartCropRect ⟨800, 600⟩ 1080 640 = ⟨0, 63, 800, 474⟩ := by
  have h := smart_crop_wider_spec 1800 600 1080 640 (by norm_num)
  exact ⟨smartCropRect_1800_600, h.2⟩

/-- Claim C3 counterexample: the desktop (single) layout uses
`resize_exact`, which stretches the source to the full 1280×720 target:
a 100×100 source (aspect ratio 1) is rendered without any letterbox padding
and with its aspect ratio NOT preserved — the image is distorted, contrary
to the claim that the source is never distorted. -/
theorem single_layout_claim_counterexample :
    ¬ preservesAspect ⟨100, 100⟩ (desktopRender ⟨100, 100⟩ 1280 720) ∧
    ¬ letterboxed (desktopRender ⟨100, 100⟩ 1280 720) := by
  constructor
  · intro hp
    simp only [preservesAspect, desktopRender] at hp
    norm_num at hp
  · intro hl
    simp only [letterboxed, desktopRender] at hl
    rcases hl with h | h <;> exact lt_irrefl _ h

/-- Claim C3 as amended: for every decodable source image the single-layout
compositor resizes it with `resize_exact` to exactly the target resolution,
covering the whole frame — no letterbox padding is added — and whenever the
source and target aspect ratios differ the source IS distorted (its aspect
ratio is not preserved). -/
theorem single_layout_resize_exact (src : Img) (tw th : ℕ)
    (hratio : tw * src.h ≠ th * src.w) :
    (desktopRender src tw th).out = ⟨tw, th⟩ ∧
    ¬ letterboxed (desktopRender src tw th) ∧
    ¬ preservesAspect src (desktopRender src tw th) := by
  refine ⟨rfl, ?_, ?_⟩
  · intro hl
    simp only [letterboxed, desktopRender] at hl
    rcases hl with h | h <;> exact lt_irrefl _ h
  · intro hp
    simp only [preservesAspect, desktopRender] at hp
    exact hratio hp

/-- Claim C3 (amended) witness: the 100×100 source stretched to 1280×720. -/
theorem single_layout_resize_exact_witness :
    (desktopRender ⟨100, 100⟩ 1280 720).out = ⟨1280, 720⟩ ∧
    ¬ letterboxed (desktopRender ⟨100, 100⟩ 1280 720) ∧
    ¬ preservesAspect ⟨100, 100⟩ (desktopRender ⟨100, 100⟩ 1280 720) :=
  single_layout_resize_exact ⟨100, 100⟩ 1280 720 (by norm_num)

/-! ### Helper lemmas: stacked-frame band contents -/

theorem stackLoopGo_apply {α : Type} (decode : α → Bool) :
    ∀ (l : List α) (i : ℕ) (acc : Bands α) (j : Fin 3),
      stackLoopGo decode l i acc j =
        if i ≤ (j : ℕ) then
          match l[(j : ℕ) - i]? with
          | some a => if decode a then some a else acc j
          | none => acc j
        else acc j := by
  intro l
  induction l with
  | nil =>
    intro i acc j
    have h1 : stackLoopGo decode [] i acc j = acc j := rfl
    rw [h1, List.getElem?_nil]
    show acc j = if i ≤ (j : ℕ) then acc j else acc j
    rw [ite_self]
  | cons r rest ih =>
    intro i acc j
    by_cases h3 : i < 3
    case neg =>
      have hj3 : (j : ℕ) < 3 := j.isLt
      have h2 : ¬ (i ≤ (j : ℕ)) := by omega
      simp only [stackLoopGo, dif_neg h3]
      rw [if_neg h2]
    case pos =>
      have hupd : (j : ℕ) ≠ i →
          Function.update acc ⟨i, h3⟩ (some r) j = acc j := by
        intro hne
        rw [Function.update_apply]
        rw [if_neg (fun he => hne (by rw [he]))]
      rcases Nat.lt_trichotomy (j : ℕ) i with hji | hji | hji
      · have h1 : ¬ (i + 1 ≤ (j : ℕ)) := by omega
        have h2 : ¬ (i ≤ (j : ℕ)) := by omega
        simp only [stackLoopGo, dif_pos h3]
        rw [ih, if_neg h1, if_neg h2]
        by_cases hd : decode r
        · rw [if_pos hd, hupd (by omega)]
        · rw [if_neg hd]
      · have h1 : ¬ (i + 1 ≤ (j : ℕ)) := by omega
        have h2 : i ≤ (j : ℕ) := by omega
        have h0 : (j : ℕ) - i = 0 := by omega
        simp only [stackLoopGo, dif_pos h3]
        rw [ih, if_neg h1, if_pos h2, h0, List.getElem?_cons_zero]
        show (if decode r then Function.update acc ⟨i, h3⟩ (some r) else acc) j
          = if decode r then some r else acc j
        by_cases hd : decode r
        · rw [if_pos hd, if_pos hd, Function.update_apply,
            if_pos (by rw [Fin.ext_iff]; exact hji)]
        · rw [if_neg hd, if_neg hd]
      · have h1 : i + 1 ≤ (j : ℕ) := by omega
        have h2 : i ≤ (j : ℕ) := by omega
        have hs2 : (j : ℕ) - i = ((j : ℕ) - (i + 1)) + 1 := by omega
        simp only [stackLoopGo, dif_pos h3]
        rw [ih, if_pos h1, if_pos h2, hs2, List.getElem?_cons_succ]
        have haccj : (if decode r then Function.update acc ⟨i, h3⟩ (some r)
            else acc) j = acc j := by
          by_cases hd : decode r
          · rw [if_pos hd, hupd (by omega)]
          · rw [if_neg hd]
        rw [haccj]

/-! ### Claim theorems: the stacked-triple compositor -/

/-- Claim C6: `create_mobile_stacked_frame` always succeeds: with fewer
than 3 source images every band beyond the supplied images stays blank with
no error raised, a band whose image fails to decode stays blank while the
frame artifact is still produced, and a band whose image decodes carries
exactly that image — so a decode failure affects only its own band. -/
theorem stacked_partial_and_skip {α : Type} (decode : α → Bool)
    (images : List α) (n : ℕ) :
    (create_mobile_stacked_frame decode images n).isOk = true ∧
    (∀ j : Fin 3, images.length ≤ (j : ℕ) →
      stackBands decode images j = none) ∧
    (∀ j : Fin 3, ∀ h : (j : ℕ) < images.length,
      decode (images.get ⟨(j : ℕ), h⟩) = false →
        stackBands decode images j = none) ∧
    (∀ j : Fin 3, ∀ h : (j : ℕ) < images.length,
      decode (images.get ⟨(j : ℕ), h⟩) = true →
        stackBands decode images j = some (images.get ⟨(j : ℕ), h⟩)) := by
  refine ⟨rfl, ?_, ?_, ?_⟩
  · intro j hj
    rw [stackBands, stackLoopGo_apply, if_pos (Nat.zero_le _), Nat.sub_zero,
      List.getElem?_eq_none hj]
  · intro j h hd
    rw [stackBands, stackLoopGo_apply, if_pos (Nat.zero_le _), Nat.sub_zero,
      List.getElem?_eq_getElem h]
    simp only [List.get_eq_getElem] at hd
    simp [hd]
  · intro j h hd
    rw [stackBands, stackLoopGo_apply, if_pos (Nat.zero_le _), Nat.sub_zero,
      List.getElem?_eq_getElem h]
    simp only [List.get_eq_getElem] at hd ⊢
    simp [hd]

/-- Claim C6 witness: two images `[0, 1]` with image 1 corrupted
(`decode r = (r != 1)`): the frame is produced, the third band (no image)
and the second band (decode failure) are blank, the first band carries
image 0. -/
theorem stacked_partial_and_skip_witness :
    (create_mobile_stacked_frame (fun r : ℕ => r != 1) [0, 1] 0).isOk = true ∧
    stackBands (fun r : ℕ => r != 1) [0, 1] 2 = none ∧
    stackBands (fun r : ℕ => r != 1) [0, 1] 1 = none ∧
    stackBands (fun r : ℕ => r != 1) [0, 1] 0 = some 0 := by
  have h := stacked_partial_and_skip (fun r : ℕ => r != 1) [0, 1] 0
  exact ⟨h.1, h.2.1 2 (by decide), h.2.2.1 1 (by decide) (by decide),
    h.2.2.2 0 (by decide) (by decide)⟩

/-! ### Helper lemmas: decimal digits, zero padding and lexicographic order -/

theorem digitsVal_shift : ∀ (r : List ℕ) (a : ℕ),
    r.foldl (fun x d => 10 * x + d) a
      = a * 10 ^ r.length + r.foldl (fun x d => 10 * x + d) 0 := by
  intro r
  induction r with
  | nil => intro a; simp
  | cons d r' ih =>
    intro a
    rw [List.foldl_cons, ih, List.foldl_cons, ih (10 * 0 + d)]
    simp only [List.length_cons, pow_succ]
    ring

theorem digitsVal_cons (a : ℕ) (r : List ℕ) :
    digitsVal (a :: r) = a * 10 ^ r.length + digitsVal r := by
  show r.foldl (fun x d => 10 * x + d) (10 * 0 + a) = _
  rw [digitsVal_shift]
  norm_num
  rfl

theorem digitsVal_lt_pow : ∀ (l : List ℕ), (∀ d ∈ l, d < 10) →
    digitsVal l < 10 ^ l.length := by
  intro l
  induction l with
  | nil => intro _; norm_num [digitsVal]
  | cons a r ih =>
    intro h
    have ha : a < 10 := h a (List.mem_cons_self a r)
    have hr : digitsVal r < 10 ^ r.length :=
      ih (fun d hd => h d (List.mem_cons_of_mem a hd))
    rw [digitsVal_cons, List.length_cons]
    calc a * 10 ^ r.length + digitsVal r
        < a * 10 ^ r.length + 10 ^ r.length := Nat.add_lt_add_left hr _
      _ = (a + 1) * 10 ^ r.length := (Nat.succ_mul a _).symm
      _ ≤ 10 * 10 ^ r.length := Nat.mul_le_mul_right _ (by omega)
      _ = 10 ^ (r.length + 1) := by rw [pow_succ, Nat.mul_comm]

theorem digitChar_lt_iff {a b : ℕ} (ha : a < 10) (hb : b < 10) :
    digitChar a < digitChar b ↔ a < b := by
  have hgen : ∀ x y : Fin 10,
      ((x : ℕ) < (y : ℕ) ↔ digitChar (x : ℕ) < digitChar (y : ℕ)) := by decide
  exact (hgen ⟨a, ha⟩ ⟨b, hb⟩).symm

theorem lex_of_digitsVal_lt : ∀ (l₁ l₂ : List ℕ), l₁.length = l₂.length →
    (∀ d ∈ l₁, d < 10) → (∀ d ∈ l₂, d < 10) →
    digitsVal l₁ < digitsVal l₂ →
    List.Lex (· < ·) (l₁.map digitChar) (l₂.map digitChar) := by
  intro l₁
  induction l₁ with
  | nil =>
    intro l₂ hlen _ _ hval
    match l₂ with
    | [] => exact absurd hval (lt_irrefl _)
    | b :: r₂ => simp at hlen
  | cons a r₁ ih =>
    intro l₂ hlen h₁ h₂ hval
    match l₂ with
    | [] => simp at hlen
    | b :: r₂ =>
      have hm : r₁.length = r₂.length := by simpa using hlen
      have ha : a < 10 := h₁ a (List.mem_cons_self a r₁)
      have hb : b < 10 := h₂ b (List.mem_cons_self b r₂)
      have hr₁ : ∀ d ∈ r₁, d < 10 := fun d hd => h₁ d (List.mem_cons_of_mem a hd)
      have hr₂ : ∀ d ∈ r₂, d < 10 := fun d hd => h₂ d (List.mem_cons_of_mem b hd)
      rcases Nat.lt_trichotomy a b with hab | hab | hab
      · exact List.Lex.rel ((digitChar_lt_iff ha hb).mpr hab)
      · subst hab
        rw [digitsVal_cons, digitsVal_cons, hm] at hval
        have hv : digitsVal r₁ < digitsVal r₂ := Nat.lt_of_add_lt_add_left hval
        exact List.Lex.cons (ih r₂ hm hr₁ hr₂ hv)
      · exfalso
        have hv₂ : digitsVal r₂ < 10 ^ r₂.length := digitsVal_lt_pow r₂ hr₂
        have hflip : digitsVal (b :: r₂) < digitsVal (a :: r₁) := by
          rw [digitsVal_cons, digitsVal_cons, hm]
          calc b * 10 ^ r₂.length + digitsVal r₂
              < b * 10 ^ r₂.length + 10 ^ r₂.length := Nat.add_lt_add_left hv₂ _
            _ = (b + 1) * 10 ^ r₂.length := (Nat.succ_mul b _).symm
            _ ≤ a * 10 ^ r₂.length := Nat.mul_le_mul_right _ (by omega)
            _ ≤ a * 10 ^ r₂.length + digitsVal r₁ := Nat.le_add_right _ _
        omega

theorem lex_append_of_lex {s t : List Char} :
    ∀ (a b : List Char), a.length = b.length →
      List.Lex (· < ·) a b → List.Lex (· < ·) (a ++ s) (b ++ t) := by
  intro a
  induction a with
  | nil =>
    intro b hlen h
    match b with
    | [] => exact absurd h (List.Lex.not_nil_right _ _)
    | y :: b' => simp at hlen
  | cons x a' ih =>
    intro b hlen h
    match b with
    | [] => exact absurd h (List.Lex.not_nil_right _ _)
    | y :: b' =>
      cases h with
      | cons h' => exact List.Lex.cons (ih b' (by simpa using hlen) h')
      | rel hr => exact List.Lex.rel hr

theorem pad6_lt_10 (n : ℕ) : ∀ d ∈ pad6 n, d < 10 := by
  intro d hd
  simp only [pad6, List.mem_cons, List.not_mem_nil, or_false] at hd
  rcases hd with h | h | h | h | h | h <;> subst h <;> omega

theorem pad6_length (n : ℕ) : (pad6 n).length = 6 := rfl

theorem digitsVal_pad6 (n : ℕ) (hn : n < 1000000) : digitsVal (pad6 n) = n := by
  simp only [digitsVal, pad6, List.foldl_cons, List.foldl_nil]
  omega

theorem frameName_lt_of_lt {i j : ℕ} (hi : i < 1000000) (hj : j < 1000000)
    (hij : i < j) : List.Lex (· < ·) (frameName i) (frameName j) := by
  rw [frameName, frameName, List.append_assoc, List.append_assoc]
  apply List.Lex.append_left
  apply lex_append_of_lex
  · rw [List.length_map, List.length_map, pad6_length, pad6_length]
  · apply lex_of_digitsVal_lt _ _ (by rw [pad6_length, pad6_length])
      (pad6_lt_10 i) (pad6_lt_10 j)
    rw [digitsVal_pad6 i hi, digitsVal_pad6 j hj]
    exact hij

theorem frameName_lt_iff (i j : ℕ) (hi : i < 1000000) (hj : j < 1000000) :
    List.Lex (· < ·) (frameName i) (frameName j) ↔ i < j := by
  constructor
  · intro h
    rcases Nat.lt_trichotomy i j with hij | hij | hij
    · exact hij
    · subst hij
      exact absurd h (asymm h)
    · exact absurd h (asymm (frameName_lt_of_lt hj hi hij))
  · exact frameName_lt_of_lt hi hj

/-! ### Claim theorems: frame artifact naming -/

/-- Claim C8: the run's frame jobs carry the contiguous frame numbers
`0 .. N-1` in order (no gaps), each artifact name is
`frame_` + the 6 zero-padded decimal digits of its index + `.png` — the
padded digits decode back to exactly the index — index 0 yields
`frame_000000.png`, and for indices within the 6-digit range the
lexicographic order of the names coincides with the numeric frame order. -/
theorem frame_artifact_naming {α : Type} (shuffle : List α → List α)
    (decode : α → Bool) (png_files : List α) (jump_cut_seconds : ℚ)
    (framerate : ℕ) (mobile_format : Bool) (mp3_duration : ℚ)
    (i j : ℕ) (hi : i < 1000000) (hj : j < 1000000) :
    (create_video_precise_timing shuffle decode png_files jump_cut_seconds
        framerate mobile_format mp3_duration).jobs.map (fun jb => jb.frame_number)
      = List.range (create_video_precise_timing shuffle decode png_files
          jump_cut_seconds framerate mobile_format mp3_duration).jobs.length ∧
    (pad6 i).length = 6 ∧
    digitsVal (pad6 i) = i ∧
    frameName i = "frame_".data ++ (pad6 i).map digitChar ++ ".png".data ∧
    frameName 0 = "frame_000000.png".data ∧
    (List.Lex (· < ·) (frameName i) (frameName j) ↔ i < j) := by
  refine ⟨?_, pad6_length i, digitsVal_pad6 i hi, rfl, by decide,
    frameName_lt_iff i j hi hj⟩
  simp only [create_video_precise_timing]
  rw [buildJobsGo_map_frame_number, buildJobsGo_length, List.range_eq_range']

/-- Claim C8 witness: indices 3 and 17 — six zero-padded digits decoding
back to the index, `frame_000000.png` at index 0, and name order matching
numeric order. -/
theorem frame_artifact_naming_witness :
    (pad6 3).length = 6 ∧
    digitsVal (pad6 3) = 3 ∧
    frameName 0 = "frame_000000.png".data ∧
    (List.Lex (· < ·) (frameName 3) (frameName 17) ↔ 3 < 17) := by
  have h := frame_artifact_naming id (fun _ : ℕ => true) [0] 1 30 false 2
    3 17 (by norm_num) (by norm_num)
  exact ⟨h.2.1, h.2.2.1, h.2.2.2.2.1, h.2.2.2.2.2⟩

end SnowdenCore
